import Mathlib

/-!
Verification of the core logic of the `deepseek-chat` client
(`src/app/page.tsx`): the streaming-response content segmenter
(`parseMessageContent`) and the search-augmentation orchestration in
`handleSubmit` (search request, context formatting, system-message
injection, query-history window).

Strings are modelled as `List Char`.  The JavaScript string operations used
by the source are embedded explicitly:
  * `String.prototype.includes(pat)`   → `containsSub`
  * `String.prototype.split(pat)`      → `splitAll` (split at every
    occurrence, scanning left to right; `splitFirst` performs one step)
  * `Array.prototype.join(sep)`        → `joinSep`
  * `String.prototype.replace(pat,'')` → `replaceFirst` (JS `replace` with a
    string pattern replaces only the first occurrence)
  * `String.prototype.trim()`          → `trim`
  * `Array.prototype.slice(-3)`        → `sliceLast3`
-/

namespace DeepseekChat

/-- Shorthand for converting a Lean string literal to the `List Char` model. -/
def strD (s : String) : List Char := s.data

/-- Model of JS `s.includes(pat)`: `pat` occurs as a contiguous substring. -/
def containsSub (pat : List Char) : List Char → Bool
  | [] => pat.isEmpty
  | c :: cs => pat.isPrefixOf (c :: cs) || containsSub pat cs

/-- Split at the first occurrence of `pat`: returns the part strictly before
the first occurrence and the part strictly after it, or `none` when `pat`
does not occur (for non-empty `pat`). -/
def splitFirst (pat : List Char) : List Char → Option (List Char × List Char)
  | [] => none
  | c :: cs =>
    if pat.isPrefixOf (c :: cs) then some ([], (c :: cs).drop pat.length)
    else (splitFirst pat cs).map (fun p => (c :: p.1, p.2))

/-- Model of JS `s.replace(pat, '')`: remove the first occurrence of `pat`,
leave the string unchanged when `pat` does not occur. -/
def replaceFirst (pat : List Char) : List Char → List Char
  | [] => []
  | c :: cs =>
    if pat.isPrefixOf (c :: cs) then (c :: cs).drop pat.length
    else c :: replaceFirst pat cs

/-- Model of JS `s.trim()`: drop whitespace from both ends. -/
def trim (s : List Char) : List Char :=
  ((s.dropWhile Char.isWhitespace).reverse.dropWhile Char.isWhitespace).reverse

/-- Boolean prefix test unfolded to an existential. -/
lemma isPrefixOf_eq : ∀ (p l : List Char), p.isPrefixOf l = true ↔ ∃ t, l = p ++ t
  | [], l => by simp [List.isPrefixOf]
  | a :: as, [] => by simp [List.isPrefixOf]
  | a :: as, b :: bs => by
    simp only [List.isPrefixOf, Bool.and_eq_true, beq_iff_eq]
    constructor
    · rintro ⟨rfl, h⟩
      obtain ⟨t, rfl⟩ := (isPrefixOf_eq as bs).mp h
      exact ⟨t, rfl⟩
    · rintro ⟨t, ht⟩
      injection ht with h1 h2
      subst h1
      subst h2
      exact ⟨rfl, (isPrefixOf_eq as (as ++ t)).mpr ⟨t, rfl⟩⟩

/-- A successful `splitFirst` decomposes the string around the pattern. -/
lemma splitFirst_append {pat : List Char} :
    ∀ {s a b : List Char}, splitFirst pat s = some (a, b) → s = a ++ pat ++ b := by
  intro s
  induction s with
  | nil => intro a b h; simp [splitFirst] at h
  | cons c cs ih =>
    intro a b h
    by_cases hp : pat.isPrefixOf (c :: cs)
    · rw [splitFirst, if_pos hp] at h
      obtain ⟨t, ht⟩ := (isPrefixOf_eq pat (c :: cs)).mp hp
      injection h with h1
      injection h1 with ha hb
      subst ha
      rw [ht, List.drop_left] at hb
      subst hb
      simpa using ht
    · rw [splitFirst, if_neg hp] at h
      cases hsf : splitFirst pat cs with
      | none => rw [hsf] at h; exact Option.noConfusion h
      | some p =>
        rw [hsf] at h
        simp only [Option.map_some'] at h
        injection h with h1
        injection h1 with ha hb
        have := ih hsf
        subst ha
        subst hb
        simp [this]

/-- The part before the first occurrence does not itself contain the pattern. -/
lemma splitFirst_not_contains {pat : List Char} (hpat : pat ≠ []) :
    ∀ {s a b : List Char}, splitFirst pat s = some (a, b) → containsSub pat a = false := by
  intro s
  induction s with
  | nil => intro a b h; simp [splitFirst] at h
  | cons c cs ih =>
    intro a b h
    by_cases hp : pat.isPrefixOf (c :: cs)
    · rw [splitFirst, if_pos hp] at h
      injection h with h1
      injection h1 with ha _
      subst ha
      simpa [containsSub, List.isEmpty_iff] using hpat
    · rw [splitFirst, if_neg hp] at h
      cases hsf : splitFirst pat cs with
      | none => rw [hsf] at h; exact Option.noConfusion h
      | some p =>
        rw [hsf] at h
        simp only [Option.map_some'] at h
        injection h with h1
        injection h1 with ha hb
        subst ha
        have hrest := ih hsf
        rw [containsSub, hrest]
        simp only [Bool.or_false]
        by_contra hcontra
        simp only [Bool.not_eq_false] at hcontra
        obtain ⟨t, ht⟩ := (isPrefixOf_eq pat (c :: p.1)).mp hcontra
        have hcs := splitFirst_append hsf
        apply hp
        rw [isPrefixOf_eq]
        refine ⟨t ++ pat ++ b, ?_⟩
        have : c :: cs = c :: p.1 ++ pat ++ b := by simp [hcs, hb]
        rw [this, ht]
        simp [List.append_assoc]

/-- A successful `splitFirst` means the pattern occurs. -/
lemma contains_of_splitFirst {pat : List Char} :
    ∀ {s : List Char} {x : List Char × List Char},
      splitFirst pat s = some x → containsSub pat s = true := by
  intro s
  induction s with
  | nil => intro x h; simp [splitFirst] at h
  | cons c cs ih =>
    intro x h
    by_cases hp : pat.isPrefixOf (c :: cs)
    · simp [containsSub, hp]
    · rw [splitFirst, if_neg hp] at h
      cases hsf : splitFirst pat cs with
      | none => rw [hsf] at h; exact Option.noConfusion h
      | some p => simp [containsSub, hp, ih hsf]

/-- When the pattern occurs, `splitFirst` succeeds. -/
lemma splitFirst_of_contains {pat : List Char} (hpat : pat ≠ []) :
    ∀ {s : List Char}, containsSub pat s = true →
      ∃ a b, splitFirst pat s = some (a, b) := by
  intro s
  induction s with
  | nil =>
    intro h
    rw [containsSub, List.isEmpty_iff] at h
    exact absurd h hpat
  | cons c cs ih =>
    intro h
    by_cases hp : pat.isPrefixOf (c :: cs)
    · exact ⟨[], (c :: cs).drop pat.length, by rw [splitFirst, if_pos hp]⟩
    · rw [containsSub] at h
      simp only [hp, Bool.false_or] at h
      obtain ⟨a, b, hab⟩ := ih h
      exact ⟨c :: a, b, by rw [splitFirst, if_neg hp, hab]; rfl⟩

/-- Occurrence is preserved by appending on the right. -/
lemma containsSub_append {pat : List Char} :
    ∀ {s : List Char} (t : List Char),
      containsSub pat s = true → containsSub pat (s ++ t) = true := by
  intro s
  induction s with
  | nil =>
    intro t h
    rw [containsSub, List.isEmpty_iff] at h
    subst h
    induction t with
    | nil => simp [containsSub]
    | cons c cs _ => simp [containsSub, List.isPrefixOf]
  | cons c cs ih =>
    intro t h
    rw [containsSub] at h
    rw [List.cons_append, containsSub]
    rcases Bool.or_eq_true_iff.mp h with hp | hc
    · obtain ⟨u, hu⟩ := (isPrefixOf_eq pat (c :: cs)).mp hp
      have : c :: cs ++ t = pat ++ (u ++ t) := by rw [hu]; simp [List.append_assoc]
      rw [List.cons_append] at this
      rw [(isPrefixOf_eq pat (c :: (cs ++ t))).mpr ⟨u ++ t, this⟩]
      simp
    · rw [ih t hc]
      simp

/-- When the pattern does not occur, `replaceFirst` is the identity. -/
lemma replaceFirst_of_not_contains {pat : List Char} :
    ∀ {s : List Char}, containsSub pat s = false → replaceFirst pat s = s := by
  intro s
  induction s with
  | nil => intro _; rfl
  | cons c cs ih =>
    intro h
    rw [containsSub] at h
    simp only [Bool.or_eq_false_iff] at h
    rw [replaceFirst, if_neg (by simp [h.1]), ih h.2]

/-- Length bookkeeping of a successful `splitFirst`. -/
lemma splitFirst_length {pat s a b : List Char}
    (h : splitFirst pat s = some (a, b)) :
    s.length = a.length + pat.length + b.length := by
  rw [splitFirst_append h]
  simp [List.length_append]
  omega

/-- Model of JS `s.split(pat)`: split at every occurrence of `pat`, scanning
left to right and consuming each occurrence.  The `pat.length = 0` branch is
never exercised by this program (the separator is always `"</think>"`). -/
def splitAll (pat : List Char) (s : List Char) : List (List Char) :=
  if hp : pat.length = 0 then [s]
  else
    match hh : splitFirst pat s with
    | none => [s]
    | some (a, b) => a :: splitAll pat b
termination_by s.length
decreasing_by
  have h1 := splitFirst_length hh
  omega

/-- Model of JS `parts.join(sep)`. -/
def joinSep (sep : List Char) : List (List Char) → List Char
  | [] => []
  | [a] => a
  | a :: rest => a ++ sep ++ joinSep sep rest

lemma splitAll_of_none {pat s : List Char} (h : splitFirst pat s = none) :
    splitAll pat s = [s] := by
  rw [splitAll]
  split
  · rfl
  · split
    · rfl
    · rename_i heq
      rw [h] at heq
      exact Option.noConfusion heq

lemma splitAll_of_some {pat s a b : List Char} (hp : pat.length ≠ 0)
    (h : splitFirst pat s = some (a, b)) :
    splitAll pat s = a :: splitAll pat b := by
  rw [splitAll]
  split
  · omega
  · split
    · rename_i heq
      rw [h] at heq
      exact Option.noConfusion heq
    · rename_i a' b' heq
      rw [h] at heq
      injection heq with h1
      injection h1 with ha hb
      rw [ha, hb]

lemma splitAll_ne_nil (pat s : List Char) : splitAll pat s ≠ [] := by
  rw [splitAll]
  split
  · simp
  · split
    · simp
    · simp

/-- Splitting and rejoining with the same separator reconstructs the string:
this is the `split`/`join` round trip used by the source to cut at the first
occurrence only. -/
lemma joinSep_splitAll (pat : List Char) : ∀ s, joinSep pat (splitAll pat s) = s := by
  intro s
  generalize hn : s.length = n
  induction n using Nat.strong_induction_on generalizing s with
  | _ n ih =>
    subst hn
    by_cases hp : pat.length = 0
    · rw [splitAll]
      simp [hp, joinSep]
    · cases hsf : splitFirst pat s with
      | none => rw [splitAll_of_none hsf]; rfl
      | some ab =>
        obtain ⟨a, b⟩ := ab
        rw [splitAll_of_some hp hsf]
        have hlen := splitFirst_length hsf
        have hblt : b.length < s.length := by omega
        have hrec := ih b.length hblt b rfl
        cases hba : splitAll pat b with
        | nil => exact absurd hba (splitAll_ne_nil pat b)
        | cons x xs =>
          rw [hba] at hrec
          rw [joinSep]
          · rw [hrec, splitFirst_append hsf]
          · simp

/-- The reasoning start/end markers of the streamed model output. -/
def endMarker : List Char := strD "</think>"

def startMarker : List Char := strD "<think>"

/-- Derived view of a (possibly partial) assistant message. -/
structure SegmentedContent where
  thinking : List Char
  finalResponse : List Char
  isComplete : Bool
deriving DecidableEq

/-- Embedding of `parseMessageContent` from `src/app/page.tsx`.  The source
destructures `content.split('</think>')` as `[thinking, ...rest]` and
rejoins `rest` with the same marker; here `parts.headD []` is the first
split component and `joinSep endMarker parts.tail` is the rejoined rest. -/
def parseMessageContent (content : List Char) : SegmentedContent :=
  if containsSub endMarker content then
    let parts := splitAll endMarker content
    { thinking := trim (replaceFirst startMarker (parts.headD []))
      finalResponse := trim (joinSep endMarker parts.tail)
      isComplete := true }
  else if containsSub startMarker content then
    { thinking := trim (replaceFirst startMarker content)
      finalResponse := []
      isComplete := false }
  else
    { thinking := []
      finalResponse := content
      isComplete := true }

/-- Core shape of the end-marker branch: when the end marker occurs,
segmentation splits at its first occurrence. -/
lemma parse_of_splitFirst {content pre post : List Char}
    (h : splitFirst endMarker content = some (pre, post)) :
    parseMessageContent content =
      ⟨trim (replaceFirst startMarker pre), trim post, true⟩ := by
  have hc : containsSub endMarker content = true := contains_of_splitFirst h
  have hs : splitAll endMarker content = pre :: splitAll endMarker post :=
    splitAll_of_some (by decide) h
  rw [parseMessageContent]
  rw [hc]
  simp only [if_true]
  rw [hs]
  simp only [List.headD_cons, List.tail_cons]
  rw [joinSep_splitAll]

/-- The first branch of the segmenter always reports completeness. -/
lemma parse_isComplete_of_contains {content : List Char}
    (h : containsSub endMarker content = true) :
    (parseMessageContent content).isComplete = true := by
  rw [parseMessageContent, h]
  simp

/-- Message roles of the conversation store (`ai/react` `Message.role` as
used by this page). -/
inductive Role where
  | user
  | assistant
  | system
deriving DecidableEq

/-- A conversation message. -/
structure Msg where
  id : List Char
  role : Role
  content : List Char
deriving DecidableEq

/-- A search collaborator result (`SearchResult` interface of the source;
`author` and `publishedDate` are optional fields). -/
structure SearchResult where
  title : List Char
  url : List Char
  text : List Char
  author : Option (List Char)
  publishedDate : Option (List Char)
deriving DecidableEq

/-- JS truthiness of an optional string field: present and non-empty. -/
def truthyOpt : Option (List Char) → Bool
  | none => false
  | some s => !s.isEmpty

/-- Value of an optional string field as interpolated by the template. -/
def optStr : Option (List Char) → List Char
  | none => []
  | some s => s

/-- The `Author: ...\n` line, emitted only when `author` is truthy. -/
def authorLine (r : SearchResult) : List Char :=
  if truthyOpt r.author then strD "Author: " ++ optStr r.author ++ strD "\n" else []

/-- The `Date: ...\n` line, emitted only when `publishedDate` is truthy. -/
def dateLine (r : SearchResult) : List Char :=
  if truthyOpt r.publishedDate then strD "Date: " ++ optStr r.publishedDate ++ strD "\n" else []

/-- The `Source [i+1]:` citation label of a block. -/
def sourceLabel (n : Nat) : List Char :=
  strD "Source [" ++ (Nat.repr n).data ++ strD "]:"

/-- One numbered block of the search context, built from result `r` at
0-based array index `i` (template body of `results.map((r, i) => ...)`). -/
def formatResult (r : SearchResult) (i : Nat) : List Char :=
  sourceLabel (i + 1) ++ strD "\nTitle: " ++ r.title ++
  strD "\nURL: " ++ r.url ++ strD "\n" ++
  authorLine r ++ dateLine r ++
  strD "Content: " ++ r.text ++ strD "\n---"

/-- Model of JS `Array.prototype.map((r, i) => ...)`, carrying the index. -/
def mapWithIdx (f : SearchResult → Nat → List Char) :
    List SearchResult → Nat → List (List Char)
  | [], _ => []
  | r :: rs, i => f r i :: mapWithIdx f rs (i + 1)

/-- The numbered blocks of the search context, in result order. -/
def formatBlocks (results : List SearchResult) : List (List Char) :=
  mapWithIdx formatResult results 0

/-- The fixed instruction suffix of the search context. -/
def instructionsText : List Char :=
  strD "\n\nInstructions: Based on the above search results, please provide an answer to the user's query. When referencing information, cite the source number in brackets like [1], [2], etc. Use simple english. Use simple words."

/-- Embedding of the `searchContext` construction of `handleSubmit`:
empty results give the empty string, otherwise a header, the blocks joined
by blank lines, and the instruction suffix. -/
def formatSearchContext (results : List SearchResult) : List Char :=
  if 0 < results.length then
    strD "Web Search Results:\n\n" ++
      joinSep (strD "\n\n") (formatBlocks results) ++ instructionsText
  else []

/-- The component state of the page touched by `handleSubmit`. -/
structure PageState where
  isSearching : Bool
  searchResults : List SearchResult
  searchError : Option (List Char)
  previousQueries : List (List Char)
  messages : List Msg
deriving DecidableEq

/-- Outcome of the search collaborator call: a parsed success payload, or a
failure (non-success HTTP response — the thrown `Error('Search failed')` —
or a transport error), carrying the human-readable message recorded by the
`catch` block. -/
inductive SearchResponse where
  | ok (results : List SearchResult)
  | err (msg : List Char)
deriving DecidableEq

/-- The body sent to `/api/exawebsearch`. -/
structure SearchRequest where
  query : List Char
  previousQueries : List (List Char)
deriving DecidableEq

/-- Externally observable effects of one `handleSubmit` turn. -/
structure TurnEffects where
  searchRequest : Option SearchRequest
  modelRequestIssued : Bool
deriving DecidableEq

/-- Model of JS `arr.slice(-3)`: the last three entries (all of them when
there are fewer than three). -/
def sliceLast3 (l : List (List Char)) : List (List Char) :=
  l.drop (l.length - 3)

/-- The query-history update `prev => [...prev, input].slice(-3)`. -/
def appendQuery (h : List (List Char)) (q : List Char) : List (List Char) :=
  sliceLast3 (h ++ [q])

/-- Embedding of `handleSubmit` from `src/app/page.tsx` as a state
transition.  The search collaborator's outcome is passed in as `resp`; the
generated system-message id (`Date.now().toString()`) as `sysId`.  The
`useChat` collaborator's own writes (the pending user message and the
streamed assistant message) are outside this function, exactly as in the
source, where they happen inside `handleChatSubmit`; `modelRequestIssued`
records whether `handleChatSubmit` was called. -/
def handleSubmit (sysId : List Char) (input : List Char) (st : PageState)
    (resp : SearchResponse) : PageState × TurnEffects :=
  if trim input = [] then (st, ⟨none, false⟩)
  else
    let st1 : PageState :=
      { st with isSearching := true, searchResults := [], searchError := none }
    let req : SearchRequest := ⟨input, sliceLast3 st1.previousQueries⟩
    match resp with
    | .err m =>
      ({ st1 with searchError := some m, isSearching := false },
       ⟨some req, false⟩)
    | .ok results =>
      let st2 : PageState := { st1 with searchResults := results }
      let ctx := formatSearchContext results
      let st3 : PageState :=
        if ctx ≠ [] then
          { st2 with messages := st2.messages ++ [⟨sysId, Role.system, ctx⟩] }
        else st2
      ({ st3 with
          previousQueries := appendQuery st3.previousQueries input,
          isSearching := false },
       ⟨some req, true⟩)

/-! ## Claim theorems: content segmenter -/

/-- C1: for every content string in which the end marker `</think>` is
present, `segment(content)` returns `isComplete = true`, `thinking` equal to
everything before the first occurrence of the end marker with the start
marker `<think>` stripped if present and trimmed, and `finalResponse` equal
to everything after the first end marker, trimmed; later occurrences of the
end-marker text after the first split point are preserved verbatim inside
`finalResponse` (rejoined, not dropped) — `post` below is the literal
remainder of the string after the first end marker, including any further
`</think>` occurrences. -/
theorem segment_splits_at_first_end_marker (content pre post : List Char)
    (h : splitFirst endMarker content = some (pre, post)) :
    content = pre ++ endMarker ++ post ∧
    containsSub endMarker pre = false ∧
    parseMessageContent content =
      ⟨trim (replaceFirst startMarker pre), trim post, true⟩ :=
  ⟨splitFirst_append h, splitFirst_not_contains (by decide) h, parse_of_splitFirst h⟩

def w1content : List Char := strD "x<think> hm </think> ans </think> more"

def w1pre : List Char := strD "x<think> hm "

def w1post : List Char := strD " ans </think> more"

theorem segment_splits_at_first_end_marker_witness :
    splitFirst endMarker w1content = some (w1pre, w1post) ∧
    (w1content = w1pre ++ endMarker ++ w1post ∧
     containsSub endMarker w1pre = false ∧
     parseMessageContent w1content =
       ⟨trim (replaceFirst startMarker w1pre), trim w1post, true⟩) :=
  ⟨by decide, segment_splits_at_first_end_marker w1content w1pre w1post (by decide)⟩

/-- C3: for every content string containing neither the start marker
`<think>` nor the end marker `</think>`, `segment(content)` returns
`thinking = ""`, `isComplete = true`, and `finalResponse` equal to the input
exactly, with no trimming or mutation. -/
theorem segment_no_markers (content : List Char)
    (h1 : containsSub endMarker content = false)
    (h2 : containsSub startMarker content = false) :
    parseMessageContent content = ⟨[], content, true⟩ := by
  rw [parseMessageContent, h1, h2]
  simp

theorem segment_no_markers_witness :
    containsSub endMarker [] = false ∧
    containsSub startMarker [] = false ∧
    parseMessageContent [] = ⟨[], [], true⟩ :=
  ⟨by decide, by decide, segment_no_markers [] (by decide) (by decide)⟩

/-- C4: for every content string that contains the start marker `<think>`
but not the end marker `</think>`, `segment(content)` returns
`isComplete = false`, `finalResponse = ""`, and `thinking` equal to the
content with the start marker stripped and trimmed. -/
theorem segment_start_marker_only (content : List Char)
    (h1 : containsSub endMarker content = false)
    (h2 : containsSub startMarker content = true) :
    parseMessageContent content =
      ⟨trim (replaceFirst startMarker content), [], false⟩ := by
  rw [parseMessageContent, h1, h2]
  simp

def w4content : List Char := strD " <think> reasoning so far"

theorem segment_start_marker_only_witness :
    containsSub endMarker w4content = false ∧
    containsSub startMarker w4content = true ∧
    parseMessageContent w4content =
      ⟨trim (replaceFirst startMarker w4content), [], false⟩ :=
  ⟨by decide, by decide, segment_start_marker_only w4content (by decide) (by decide)⟩

/-- C5: completeness is monotone under buffer growth: for every string `s`
that contains the closing marker `</think>` (hence `segment(s).isComplete =
true`), and every extension suffix `t`, `segment(s ++ t).isComplete = true`
as well. -/
theorem segment_complete_monotone (s t : List Char)
    (h : containsSub endMarker s = true) :
    (parseMessageContent s).isComplete = true ∧
    (parseMessageContent (s ++ t)).isComplete = true :=
  ⟨parse_isComplete_of_contains h,
   parse_isComplete_of_contains (containsSub_append t h)⟩

theorem segment_complete_monotone_witness :
    containsSub endMarker (strD "a</think>b") = true ∧
    ((parseMessageContent (strD "a</think>b")).isComplete = true ∧
     (parseMessageContent (strD "a</think>b" ++ strD "<think>")).isComplete = true) :=
  ⟨by decide, segment_complete_monotone (strD "a</think>b") (strD "<think>") (by decide)⟩

/-- C10: for every content string that contains the end marker `</think>`
with no start marker `<think>` before the first end marker (in particular,
with no start marker anywhere), the first branch is still taken:
`isComplete = true`, `thinking` is the text before the first end marker,
trimmed — the start-marker strip is a no-op — and `finalResponse` is the
text after it, trimmed, so a `<think>` occurring only after the end marker
is preserved inside `finalResponse` rather than stripped. -/
theorem segment_end_marker_without_start (content pre post : List Char)
    (h : splitFirst endMarker content = some (pre, post))
    (h2 : containsSub startMarker pre = false) :
    parseMessageContent content = ⟨trim pre, trim post, true⟩ := by
  rw [parse_of_splitFirst h, replaceFirst_of_not_contains h2]

def w10content : List Char := strD "pre</think> post <think>x"

theorem segment_end_marker_without_start_witness :
    splitFirst endMarker w10content = some (strD "pre", strD " post <think>x") ∧
    containsSub startMarker (strD "pre") = false ∧
    parseMessageContent w10content =
      ⟨trim (strD "pre"), trim (strD " post <think>x"), true⟩ :=
  ⟨by decide, by decide,
   segment_end_marker_without_start w10content (strD "pre") (strD " post <think>x")
     (by decide) (by decide)⟩

/-! ## Claim theorems: orchestrator and formatter -/

lemma sliceLast3_length (l : List (List Char)) : (sliceLast3 l).length ≤ 3 := by
  simp only [sliceLast3, List.length_drop]
  omega

/-- A concrete page state used by the witnesses. -/
def wState : PageState :=
  { isSearching := false
    searchResults := []
    searchError := none
    previousQueries := [strD "old query"]
    messages := [⟨strD "1", Role.user, strD "hi"⟩] }

/-- C9: if the user input is empty or whitespace-only (i.e. its trim is
empty, the guard actually tested by the code), `handleSubmit` is a no-op:
the state — search results, error, loading flag, history, messages — is
returned unchanged, no search request is issued and no model request is
made. -/
theorem submit_blank_input_noop (sysId input : List Char) (st : PageState)
    (resp : SearchResponse) (h : trim input = []) :
    handleSubmit sysId input st resp = (st, ⟨none, false⟩) := by
  rw [handleSubmit, if_pos h]

theorem submit_blank_input_noop_witness :
    trim (strD "   ") = [] ∧
    handleSubmit (strD "9") (strD "   ") wState (SearchResponse.ok []) =
      (wState, ⟨none, false⟩) :=
  ⟨by decide,
   submit_blank_input_noop (strD "9") (strD "   ") wState (SearchResponse.ok [])
     (by decide)⟩

/-- C2: if the search request fails, `handleSubmit` records an error
message, issues no model request, appends no message (in particular no
system message) to the conversation, leaves the query history exactly as it
was, and clears the loading flag. -/
theorem submit_search_failure_frame (sysId input m : List Char) (st : PageState)
    (h : trim input ≠ []) :
    (handleSubmit sysId input st (.err m)).1.messages = st.messages ∧
    (handleSubmit sysId input st (.err m)).1.previousQueries = st.previousQueries ∧
    (handleSubmit sysId input st (.err m)).1.searchError = some m ∧
    (handleSubmit sysId input st (.err m)).1.isSearching = false ∧
    (handleSubmit sysId input st (.err m)).2.modelRequestIssued = false := by
  rw [handleSubmit, if_neg h]
  exact ⟨rfl, rfl, rfl, rfl, rfl⟩

theorem submit_search_failure_frame_witness :
    trim (strD "hello") ≠ [] ∧
    ((handleSubmit (strD "9") (strD "hello") wState
        (.err (strD "Search failed"))).1.messages = wState.messages ∧
     (handleSubmit (strD "9") (strD "hello") wState
        (.err (strD "Search failed"))).1.previousQueries = wState.previousQueries ∧
     (handleSubmit (strD "9") (strD "hello") wState
        (.err (strD "Search failed"))).1.searchError = some (strD "Search failed") ∧
     (handleSubmit (strD "9") (strD "hello") wState
        (.err (strD "Search failed"))).1.isSearching = false ∧
     (handleSubmit (strD "9") (strD "hello") wState
        (.err (strD "Search failed"))).2.modelRequestIssued = false) :=
  ⟨by decide,
   submit_search_failure_frame (strD "9") (strD "hello") (strD "Search failed")
     wState (by decide)⟩

/-- C6: when the search succeeds with an empty result list, the formatter
produces the empty text, and `handleSubmit` issues the model request while
appending no system message: the conversation is unchanged by the submit
handler for that turn. -/
theorem submit_empty_results_no_injection (sysId input : List Char)
    (st : PageState) (h : trim input ≠ []) :
    formatSearchContext [] = [] ∧
    (handleSubmit sysId input st (.ok [])).1.messages = st.messages ∧
    (handleSubmit sysId input st (.ok [])).2.modelRequestIssued = true := by
  rw [handleSubmit, if_neg h]
  exact ⟨rfl, rfl, rfl⟩

theorem submit_empty_results_no_injection_witness :
    trim (strD "hello") ≠ [] ∧
    (formatSearchContext [] = [] ∧
     (handleSubmit (strD "9") (strD "hello") wState (.ok [])).1.messages =
       wState.messages ∧
     (handleSubmit (strD "9") (strD "hello") wState (.ok [])).2.modelRequestIssued =
       true) :=
  ⟨by decide,
   submit_empty_results_no_injection (strD "9") (strD "hello") wState (by decide)⟩

/-- C8: the query history holds at most 3 entries: the update `appendQuery`
never produces more than 3, appending to a history of 3 evicts the oldest
(FIFO), the concrete chain `append(append(append(append([], "a"), "b"),
"c"), "d")` gives `["b", "c", "d"]`, and the window passed to the search
request holds at most the 3 most recent prior queries. -/
theorem query_history_window (h : List (List Char)) (q : List Char) :
    (appendQuery h q).length ≤ 3 ∧
    (h.length = 3 → appendQuery h q = h.tail ++ [q]) ∧
    appendQuery (appendQuery (appendQuery (appendQuery [] (strD "a")) (strD "b"))
        (strD "c")) (strD "d") = [strD "b", strD "c", strD "d"] ∧
    (∀ (sysId input : List Char) (st : PageState) (resp : SearchResponse)
        (req : SearchRequest),
      (handleSubmit sysId input st resp).2.searchRequest = some req →
      req.previousQueries.length ≤ 3) := by
  refine ⟨sliceLast3_length _, ?_, by decide, ?_⟩
  · intro hlen
    cases h with
    | nil => simp at hlen
    | cons x h' =>
      have h2 : h'.length = 2 := by simpa using hlen
      simp [appendQuery, sliceLast3, h2]
  · intro sysId input st resp req hreq
    by_cases hin : trim input = []
    · rw [handleSubmit, if_pos hin] at hreq
      exact Option.noConfusion hreq
    · rw [handleSubmit, if_neg hin] at hreq
      cases resp with
      | err m =>
        have : req = ⟨input, sliceLast3 st.previousQueries⟩ :=
          (Option.some.inj hreq).symm
        rw [this]
        exact sliceLast3_length _
      | ok results =>
        have : req = ⟨input, sliceLast3 st.previousQueries⟩ :=
          (Option.some.inj hreq).symm
        rw [this]
        exact sliceLast3_length _

theorem query_history_window_witness :
    appendQuery [strD "p", strD "q", strD "r"] (strD "s") =
      [strD "p", strD "q", strD "r"].tail ++ [strD "s"] :=
  (query_history_window [strD "p", strD "q", strD "r"] (strD "s")).2.1 (by decide)

lemma mapWithIdx_get (f : SearchResult → Nat → List Char) :
    ∀ (l : List SearchResult) (k i : Nat) (r : SearchResult),
      l.get? i = some r →
      (mapWithIdx f l k).get? i = some (f r (k + i)) := by
  intro l
  induction l with
  | nil => intro k i r h; simp [List.get?] at h
  | cons x xs ih =>
    intro k i r h
    cases i with
    | zero =>
      rw [List.get?] at h
      injection h with h
      subst h
      simp [mapWithIdx, List.get?]
    | succ i =>
      rw [List.get?] at h
      rw [mapWithIdx, List.get?]
      have harith : k + 1 + i = k + (i + 1) := by omega
      rw [ih (k + 1) i r h, harith]

/-- C7: in the formatted search context for a non-empty result list, the
citation index is positional and 1-based — for every `i` from 1 to the
length of the list, the block at position `i - 1` is the one generated from
`results[i-1]` and is labelled `Source [i]:`, regardless of which optional
fields are present — and the author line appears exactly when `author` is
present and non-empty, the date line exactly when `publishedDate` is present
and non-empty; the blocks are the ones joined into the non-empty search
context. -/
theorem format_citation_positional (results : List SearchResult) (i : Nat)
    (r : SearchResult) (h1 : 1 ≤ i) (hr : results.get? (i - 1) = some r) :
    (formatBlocks results).get? (i - 1) = some (formatResult r (i - 1)) ∧
    (∃ tl, formatResult r (i - 1) =
        strD "Source [" ++ (Nat.repr i).data ++ strD "]:" ++ tl) ∧
    (authorLine r ≠ [] ↔ truthyOpt r.author = true) ∧
    (dateLine r ≠ [] ↔ truthyOpt r.publishedDate = true) ∧
    formatSearchContext results =
      strD "Web Search Results:\n\n" ++
        joinSep (strD "\n\n") (formatBlocks results) ++ instructionsText := by
  refine ⟨?_, ?_, ?_, ?_, ?_⟩
  · have := mapWithIdx_get formatResult results 0 (i - 1) r hr
    simpa [formatBlocks] using this
  · refine ⟨strD "\nTitle: " ++ r.title ++ strD "\nURL: " ++ r.url ++ strD "\n" ++
      authorLine r ++ dateLine r ++ strD "Content: " ++ r.text ++ strD "\n---", ?_⟩
    have hi : i - 1 + 1 = i := by omega
    rw [formatResult, sourceLabel, hi]
    simp [List.append_assoc]
  · by_cases ht : truthyOpt r.author = true
    · rw [authorLine, if_pos ht]
      constructor
      · intro _; exact ht
      · intro _ hnil
        exact absurd (List.append_eq_nil.mp (List.append_eq_nil.mp hnil).1).1 (by decide)
    · rw [authorLine, if_neg ht]
      simp only [ne_eq, not_true_eq_false, false_iff]
      exact ht
  · by_cases ht : truthyOpt r.publishedDate = true
    · rw [dateLine, if_pos ht]
      constructor
      · intro _; exact ht
      · intro _ hnil
        exact absurd (List.append_eq_nil.mp (List.append_eq_nil.mp hnil).1).1 (by decide)
    · rw [dateLine, if_neg ht]
      simp only [ne_eq, not_true_eq_false, false_iff]
      exact ht
  · have hlen : 0 < results.length := by
      cases results with
      | nil => simp [List.get?] at hr
      | cons a as => simp
    rw [formatSearchContext, if_pos hlen]

def wr1 : SearchResult :=
  { title := strD "First", url := strD "http://a", text := strD "alpha"
    author := none, publishedDate := some (strD "2024-01-02") }

def wr2 : SearchResult :=
  { title := strD "Second", url := strD "http://b", text := strD "beta"
    author := some (strD "Ann"), publishedDate := none }

theorem format_citation_positional_witness :
    (1 ≤ 2 ∧ [wr1, wr2].get? (2 - 1) = some wr2) ∧
    ((formatBlocks [wr1, wr2]).get? (2 - 1) = some (formatResult wr2 (2 - 1)) ∧
     (∃ tl, formatResult wr2 (2 - 1) =
         strD "Source [" ++ (Nat.repr 2).data ++ strD "]:" ++ tl) ∧
     (authorLine wr2 ≠ [] ↔ truthyOpt wr2.author = true) ∧
     (dateLine wr2 ≠ [] ↔ truthyOpt wr2.publishedDate = true) ∧
     formatSearchContext [wr1, wr2] =
       strD "Web Search Results:\n\n" ++
         joinSep (strD "\n\n") (formatBlocks [wr1, wr2]) ++ instructionsText) :=
  ⟨⟨by decide, by decide⟩,
   format_citation_positional [wr1, wr2] 2 wr2 (by decide) (by decide)⟩

end DeepseekChat
